import Mathlib

/-!
# golang-tail-f: the tailing core of `main.go`

A shallow embedding of `follow`, `waitForChange`, `arrayToByte`, `writer` and the
timing constants of `src/main.go`, and the properties of the specification that
concern them.

Conventions of the embedding.

* A Go `string` and a Go `[]byte` are both finite byte sequences; the conversions
  `string(by)` and `[]byte(result)` are the identity on them.
* A Go `error` value is `Option GoError`; `none` is `nil`.
* The operating system, the file and the peer are scripted: a `World` lists, in
  call order, the result of every call `follow` may make.  Where a script ends
  the observation ends (`Outcome.running`), and a `waitForChange` whose
  notification reads never produce a deciding event stays `blocked`.
* `follow` returns the trace of the calls it made, with their results, and how
  it ended.  `log.Println` and `SetWriteDeadline` (whose result the code
  ignores) do not influence control flow and are not recorded.
-/

namespace TailF

/-! ## Data model -/

/-- One byte. -/
abbrev Byte := UInt8

/-- Go `string` / `[]byte`: a finite sequence of bytes. -/
abbrev GoString := List Byte

/-- Non-nil Go `error` values: `io.EOF`, `io.ErrUnexpectedEOF`, and any other
error, identified by a number (for instance a `syscall.Errno`). -/
inductive GoError where
  | EOF
  | ErrUnexpectedEOF
  | errno (code : Nat)
  deriving DecidableEq, Repr

/-! ## Timing constants (`main.go` lines 25-33) -/

/-- Go `time.Second`, a `time.Duration` (int64 nanoseconds). -/
def Second : Int := 1000000000

/-- Source: `pongWait = 60 * time.Second`. -/
def pongWait : Int := 60 * Second

/-- Source: `pingPeriod = (pongWait * 9) / 10`; Go integer division truncates. -/
def pingPeriod : Int := Int.tdiv (pongWait * 9) 10

/-- Source: `writeWait = 10 * time.Second`. -/
def writeWait : Int := 10 * Second

/-! ## `arrayToByte` (`main.go` lines 186-192) -/

/-- Source: `result := ""; for _, v := range arr { result = result + v }; return []byte(result)`. -/
def arrayToByte (arr : List GoString) : GoString :=
  arr.foldl (fun result v => result ++ v) []

/-! ## The rolling buffer update of `follow` (`main.go` lines 140-144) -/

/-- Go slice expression `s[lo:hi]`: the elements with index `lo ≤ i < hi`. -/
def slice (s : List GoString) (lo hi : Nat) : List GoString :=
  (s.take hi).drop lo

/-- Source: `last10 = append(last10, string(by)); if len(last10) == 11 { last10 = last10[1:11] }`. -/
def update (last10 : List GoString) (line : GoString) : List GoString :=
  let last10 := last10 ++ [line]
  if last10.length = 11 then slice last10 1 11 else last10

/-! ## `waitForChange` (`main.go` lines 164-184) -/

/-- Go `syscall.SizeofInotifyEvent`. -/
def SizeofInotifyEvent : Nat := 16

/-- Go `syscall.IN_MODIFY`. -/
def IN_MODIFY : Nat := 2

/-- Go `syscall.InotifyEvent`: `Wd int32; Mask, Cookie, Len uint32`. -/
structure InotifyEvent where
  Wd : Int
  Mask : Nat
  Cookie : Nat
  Len : Nat
  deriving DecidableEq, Repr

/-- Result `(n, err)` of one `syscall.Read(fd, buf[:])` on the notification
handle: `data` are the `n` bytes the kernel stored at the start of `buf`. -/
structure SysRead where
  data : List Byte
  err : Option GoError
  deriving DecidableEq, Repr

/-- State of `buf` after the read: `var buf [SizeofInotifyEvent]byte` starts
zeroed and the read overwrites its first `n` bytes. -/
def fillBuf (data : List Byte) : List Byte :=
  (data ++ List.replicate SizeofInotifyEvent 0).take SizeofInotifyEvent

/-- Little-endian unsigned value of a byte sequence. -/
def leNat : List Byte → Nat
  | [] => 0
  | b :: bs => b.toNat + 256 * leNat bs

/-- Two's-complement reading of a 32-bit word as `int32`. -/
def toInt32 (n : Nat) : Int :=
  if n < 2 ^ 31 then (n : Int) else (n : Int) - 2 ^ 32

/-- Source: `binary.Read(bytes.NewReader(buf[:]), binary.LittleEndian, &ev)`: reads
the 16 bytes of the struct in full (`io.EOF` when there is none,
`io.ErrUnexpectedEOF` when there are too few) and decodes the four fields. -/
def binaryRead (buf : List Byte) : Except GoError InotifyEvent :=
  if buf.length = 0 then .error .EOF
  else if buf.length < SizeofInotifyEvent then .error .ErrUnexpectedEOF
  else .ok
    { Wd := toInt32 (leNat ((buf.take 4)))
      Mask := leNat ((buf.drop 4).take 4)
      Cookie := leNat ((buf.drop 8).take 4)
      Len := leNat ((buf.drop 12).take 4) }

/-- How a call of `waitForChange` ends: it returns `err`, or it never returns
because the notification reads stop before a deciding one. -/
inductive WaitResult where
  | returned (err : Option GoError)
  | blocked
  deriving DecidableEq, Repr

/-- One pass through the body of the `for` loop of `waitForChange` on the read
result `r`: `some err` when the pass returns `err`, `none` when it loops. -/
def waitStep (r : SysRead) : Option (Option GoError) :=
  match r.err with
  | some e => some (some e)
  | none =>
    match binaryRead (fillBuf r.data) with
    | .error e => some (some e)
    | .ok ev => if ev.Mask &&& IN_MODIFY = IN_MODIFY then some none else none

/-- Source: `waitForChange(fd)`, run against the successive results of
`syscall.Read` on `fd`; returns the result and the reads not yet consumed. -/
def waitForChange : List SysRead → WaitResult × List SysRead
  | [] => (.blocked, [])
  | r :: rs =>
    match waitStep r with
    | some err => (.returned err, rs)
    | none => waitForChange rs

/-! ## `follow` (`main.go` lines 110-162) -/

/-- Result `(by, err)` of one `r.ReadBytes(10)`. -/
structure ReadResult where
  data : GoString
  err : Option GoError
  deriving DecidableEq, Repr

/-- The scripted environment of one call of `follow`. -/
structure World where
  /-- error of `os.Open(filename)` -/
  openErr : Option GoError
  /-- error of `syscall.InotifyInit()` -/
  initErr : Option GoError
  /-- error of `syscall.InotifyAddWatch(fd, filename, syscall.IN_MODIFY)` -/
  addWatchErr : Option GoError
  /-- results of the successive `r.ReadBytes(10)` -/
  reads : List ReadResult
  /-- results of the successive `ws.WriteMessage(websocket.TextMessage, ...)` -/
  writes : List (Option GoError)
  /-- results of the successive `syscall.Read(fd, buf[:])` -/
  inotify : List SysRead

/-- The three resources of a session. -/
inductive Handle where
  | file
  | inotify
  | conn
  deriving DecidableEq, Repr

/-- A call made by the program, with its result. -/
inductive Event where
  | osOpen (err : Option GoError)
  | inotifyInit (err : Option GoError)
  | inotifyAddWatch (err : Option GoError)
  | readBytes (data : GoString) (err : Option GoError)
  | writeMessage (msg : GoString) (err : Option GoError)
  | waitForChange (res : WaitResult)
  | writePing (err : Option GoError)
  | tickerStop
  | close (h : Handle)
  deriving DecidableEq, Repr

/-- The calls made so far, oldest first. -/
abbrev Trace := List Event

/-- How an observed run ends. -/
inductive Outcome where
  | returned (err : GoError)
  | blocked
  | running
  deriving DecidableEq, Repr

/-- Local state of the loop of `follow`, with the unconsumed scripts. -/
structure LoopState where
  last10 : List GoString
  writes : List (Option GoError)
  inotify : List SysRead

/-- What follows one pass through the loop body. -/
inductive Next where
  | again (s : LoopState)
  | halt (o : Outcome)

/-- Source: `err != nil && err != io.EOF`, yielding the error `follow` returns. -/
def readFailure : Option GoError → Option GoError
  | none => none
  | some .EOF => none
  | some e => some e

/-- One pass through the body of the `for` loop of `follow` (lines 134-160) on
the read result `rd`. -/
def loopBody (rd : ReadResult) (s : LoopState) : Trace × Next :=
  match readFailure rd.err with
  | some e => ([.readBytes rd.data rd.err], .halt (.returned e))
  | none =>
    let last10 := update s.last10 rd.data
    match s.writes with
    | [] => ([.readBytes rd.data rd.err], .halt .running)
    | some e :: _ =>
      ([.readBytes rd.data rd.err, .writeMessage (arrayToByte last10) (some e)],
        .halt (.returned e))
    | none :: writes =>
      if rd.err ≠ some .EOF then
        ([.readBytes rd.data rd.err, .writeMessage (arrayToByte last10) none],
          .again ⟨last10, writes, s.inotify⟩)
      else
        match waitForChange s.inotify with
        | (.blocked, _) =>
          ([.readBytes rd.data rd.err, .writeMessage (arrayToByte last10) none,
            .waitForChange .blocked], .halt .blocked)
        | (.returned (some e), _) =>
          ([.readBytes rd.data rd.err, .writeMessage (arrayToByte last10) none,
            .waitForChange (.returned (some e))], .halt (.returned e))
        | (.returned none, inotify) =>
          ([.readBytes rd.data rd.err, .writeMessage (arrayToByte last10) none,
            .waitForChange (.returned none)], .again ⟨last10, writes, inotify⟩)

/-- The `for` loop of `follow`, one pass per scripted read. -/
def followLoop : List ReadResult → LoopState → Trace × Outcome
  | [], _ => ([], .running)
  | rd :: reads, s =>
    match loopBody rd s with
    | (evs, .halt o) => (evs, o)
    | (evs, .again s1) => (evs ++ (followLoop reads s1).1, (followLoop reads s1).2)

/-- Source: `follow(ws, filename)`. -/
def follow (w : World) : Trace × Outcome :=
  match w.openErr with
  | some e => ([.osOpen (some e)], .returned e)
  | none =>
    match w.initErr with
    | some e => ([.osOpen none, .inotifyInit (some e)], .returned e)
    | none =>
      match w.addWatchErr with
      | some e => ([.osOpen none, .inotifyInit none, .inotifyAddWatch (some e)], .returned e)
      | none =>
        ([.osOpen none, .inotifyInit none, .inotifyAddWatch none]
            ++ (followLoop w.reads ⟨[], w.writes, w.inotify⟩).1,
          (followLoop w.reads ⟨[], w.writes, w.inotify⟩).2)

/-! ## `writer` (`main.go` lines 73-92) -/

/-- Source: the `for`/`select` of `writer` with its deferred
`pingTicker.Stop(); ws.Close()`, run against the results of the successive ping
writes, one per tick; `true` when `writer` has returned.  The goroutine started
by `go follow(ws, "./test.log")` runs on its own and is not part of this trace. -/
def writer : List (Option GoError) → Trace × Bool
  | [] => ([], false)
  | some e :: _ => ([.writePing (some e), .tickerStop, .close .conn], true)
  | none :: pings => (.writePing none :: (writer pings).1, (writer pings).2)

/-! ## Resources -/

/-- Effect of one call on the set of open handles. -/
def Event.effect (held : List Handle) : Event → List Handle
  | .osOpen none => .file :: held
  | .inotifyInit none => .inotify :: held
  | .close h => held.filter (fun x => x != h)
  | _ => held

/-- Handles open after the calls of `t`, when `held` were open before. -/
def openHandles (held : List Handle) (t : Trace) : List Handle :=
  t.foldl Event.effect held

/-! ## Reading a file (the `bufio.Reader` behind `r.ReadBytes`) -/

/-- The line terminator `10`. -/
def newline : Byte := 10

/-- Library `bufio.Reader.ReadBytes(delim)` on a file whose unread content is `unread`
and does not grow: the bytes up to and including the first `delim`, or all the
unread bytes with `io.EOF`; with the content left unread. -/
def readBytes (delim : Byte) : List Byte → ReadResult × List Byte
  | [] => (⟨[], some .EOF⟩, [])
  | c :: cs =>
    if c = delim then (⟨[c], none⟩, cs)
    else (⟨c :: (readBytes delim cs).1.data, (readBytes delim cs).1.err⟩, (readBytes delim cs).2)

/-- Results of `n` successive `r.ReadBytes(10)` on such a file. -/
def fileReads : Nat → List Byte → List ReadResult
  | 0, _ => []
  | n + 1, unread => (readBytes newline unread).1 :: fileReads n (readBytes newline unread).2

/-! ## Observations on traces -/

/-- The chunks returned by the reads of a trace, in order. -/
def chunksRead : Trace → List GoString
  | [] => []
  | .readBytes data _ :: t => data :: chunksRead t
  | _ :: t => chunksRead t

/-- The results of the reads of a trace, in order. -/
def readsOf : Trace → List ReadResult
  | [] => []
  | .readBytes data err :: t => ⟨data, err⟩ :: readsOf t
  | _ :: t => readsOf t

/-- The error with which a call fails, if it does; `io.EOF` from `ReadBytes` is
not a failure. -/
def Event.failure : Event → Option GoError
  | .osOpen err => err
  | .inotifyInit err => err
  | .inotifyAddWatch err => err
  | .readBytes _ err => readFailure err
  | .writeMessage _ err => err
  | .waitForChange (.returned err) => err
  | .writePing err => err
  | _ => none

/-- The runs of the loop of `follow` described call by call: `LoopRun reads b t o`
says that from the buffer `b`, against the read script `reads`, the loop makes
the calls `t` and ends as `o`. -/
inductive LoopRun : List ReadResult → List GoString → Trace → Outcome → Prop where
  | scriptEnd (b : List GoString) : LoopRun [] b [] .running
  | readFail (rd : ReadResult) (rs : List ReadResult) (b : List GoString) (e : GoError) :
      readFailure rd.err = some e →
      LoopRun (rd :: rs) b [.readBytes rd.data rd.err] (.returned e)
  | writesEnd (rd : ReadResult) (rs : List ReadResult) (b : List GoString) :
      readFailure rd.err = none →
      LoopRun (rd :: rs) b [.readBytes rd.data rd.err] .running
  | writeFail (rd : ReadResult) (rs : List ReadResult) (b : List GoString) (e : GoError) :
      readFailure rd.err = none →
      LoopRun (rd :: rs) b
        [.readBytes rd.data rd.err, .writeMessage (arrayToByte (update b rd.data)) (some e)]
        (.returned e)
  | line (rd : ReadResult) (rs : List ReadResult) (b : List GoString) (t : Trace)
      (o : Outcome) :
      rd.err = none → LoopRun rs (update b rd.data) t o →
      LoopRun (rd :: rs) b
        (.readBytes rd.data rd.err :: .writeMessage (arrayToByte (update b rd.data)) none :: t) o
  | waitBlocked (rd : ReadResult) (rs : List ReadResult) (b : List GoString) :
      rd.err = some .EOF →
      LoopRun (rd :: rs) b
        [.readBytes rd.data rd.err, .writeMessage (arrayToByte (update b rd.data)) none,
          .waitForChange .blocked] .blocked
  | waitFail (rd : ReadResult) (rs : List ReadResult) (b : List GoString) (e : GoError) :
      rd.err = some .EOF →
      LoopRun (rd :: rs) b
        [.readBytes rd.data rd.err, .writeMessage (arrayToByte (update b rd.data)) none,
          .waitForChange (.returned (some e))] (.returned e)
  | waitOk (rd : ReadResult) (rs : List ReadResult) (b : List GoString) (t : Trace)
      (o : Outcome) :
      rd.err = some .EOF → LoopRun rs (update b rd.data) t o →
      LoopRun (rd :: rs) b
        (.readBytes rd.data rd.err :: .writeMessage (arrayToByte (update b rd.data)) none ::
          .waitForChange (.returned none) :: t) o

/-! ## Sample inputs -/

/-- The line `c` followed by the terminator. -/
def lineOf (c : Byte) : GoString := [c, newline]

/-- A file of the ten lines `0` ... `9`. -/
def tenLines : List Byte :=
  ([48, 49, 50, 51, 52, 53, 54, 55, 56, 57].map lineOf).flatten

/-- A notification read delivering one event with mask `mask` (below 256). -/
def inotifyEvent (mask : Byte) : SysRead :=
  ⟨[1, 0, 0, 0, mask, 0, 0, 0, 0, 0, 0, 0, 0, 0, 0, 0], none⟩

/-- Everything succeeds: the file is `content`, read `n` times; `n` sends
succeed; the notification reads are `inotify`. -/
def fileWorld (content : List Byte) (n : Nat) (inotify : List SysRead) : World :=
  { openErr := none, initErr := none, addWatchErr := none,
    reads := fileReads n content, writes := List.replicate n none, inotify := inotify }

/-- The file opens, then `InotifyInit` fails with `EMFILE` (24). -/
def leakWorld : World :=
  { openErr := none, initErr := some (.errno 24), addWatchErr := none,
    reads := [], writes := [], inotify := [] }

/-- The file `a\nb`, whose second send fails with `EPIPE` (32). -/
def brokenPipeWorld : World :=
  { openErr := none, initErr := none, addWatchErr := none,
    reads := fileReads 3 [97, 10, 98], writes := [none, some (.errno 32)], inotify := [] }

/-! ## Lemmas on the pure functions -/

theorem foldl_append_flatten (acc : GoString) (arr : List GoString) :
    arr.foldl (fun result v => result ++ v) acc = acc ++ arr.flatten := by
  induction arr generalizing acc with
  | nil => simp
  | cons v vs ih => simp [ih]

theorem arrayToByte_eq_flatten (arr : List GoString) : arrayToByte arr = arr.flatten := by
  simp [arrayToByte, foldl_append_flatten]

theorem update_eq_drop (b : List GoString) (x : GoString) (hb : b.length ≤ 10) :
    update b x = (b ++ [x]).drop (b.length + 1 - 10) := by
  unfold update slice
  by_cases h : b.length = 10
  · have h11 : (b ++ [x]).length = 11 := by simp [h]
    simp only [h11, if_true]
    rw [List.take_of_length_le (by omega)]
    simp [h]
  · have h11 : (b ++ [x]).length ≠ 11 := by simp; omega
    have h0 : b.length + 1 - 10 = 0 := by omega
    simp only [h11, if_false, h0, List.drop_zero]

theorem foldl_update_eq_drop (xs : List GoString) :
    xs.foldl update [] = xs.drop (xs.length - 10) := by
  induction xs using List.reverseRecOn with
  | nil => simp
  | append_singleton xs x ih =>
    rw [List.foldl_append, List.foldl_cons, List.foldl_nil, ih]
    rw [update_eq_drop _ _ (by simp; omega)]
    simp only [List.length_drop, List.length_append, List.length_singleton]
    by_cases h : xs.length ≤ 10
    · have h1 : xs.length - 10 = 0 := by omega
      have h2 : xs.length - (xs.length - 10) + 1 - 10 = xs.length + 1 - 10 := by omega
      rw [h2, h1, List.drop_zero]
    · have h2 : xs.length - (xs.length - 10) + 1 - 10 = 1 := by omega
      have h3 : xs.length + 1 - 10 = xs.length - 10 + 1 := by omega
      rw [h2, h3, List.drop_append_of_le_length (by simp; omega), List.drop_drop,
        List.drop_append_of_le_length (by omega)]

theorem mask_modify_iff (n : Nat) : n &&& IN_MODIFY = IN_MODIFY ↔ n.testBit 1 = true := by
  have h := Nat.and_two_pow n 1
  simp only [pow_one] at h
  unfold IN_MODIFY
  rw [h]
  cases n.testBit 1 <;> simp

theorem waitForChange_skip (pre rs : List SysRead) (hpre : ∀ x ∈ pre, waitStep x = none) :
    waitForChange (pre ++ rs) = waitForChange rs := by
  induction pre with
  | nil => rfl
  | cons x xs ih =>
    have hx : waitStep x = none := hpre x (by simp)
    simp only [List.cons_append, waitForChange, hx]
    exact ih (fun y hy => hpre y (by simp [hy]))

theorem waitForChange_returned (rs rest : List SysRead) (err : Option GoError)
    (h : waitForChange rs = (.returned err, rest)) :
    ∃ p x, rs = p ++ x :: rest ∧ (∀ y ∈ p, waitStep y = none) ∧ waitStep x = some err := by
  induction rs with
  | nil => simp [waitForChange] at h
  | cons r rs ih =>
    cases hr : waitStep r with
    | some e =>
      simp only [waitForChange, hr, Prod.mk.injEq, WaitResult.returned.injEq] at h
      exact ⟨[], r, by simp [h.2], by simp, by rw [hr, h.1]⟩
    | none =>
      simp only [waitForChange, hr] at h
      obtain ⟨p, x, hp, hskip, hx⟩ := ih h
      refine ⟨r :: p, x, by simp [hp], ?_, hx⟩
      intro y hy
      rcases List.mem_cons.1 hy with rfl | hy
      · exact hr
      · exact hskip y hy

/-! ## The loop of `follow` call by call -/

theorem readFailure_eq_none (err : Option GoError) (h : readFailure err = none) :
    err = none ∨ err = some .EOF := by
  cases err with
  | none => simp
  | some e => cases e <;> simp [readFailure] at h ⊢

theorem followLoop_run (reads : List ReadResult) (s : LoopState) :
    LoopRun reads s.last10 (followLoop reads s).1 (followLoop reads s).2 := by
  induction reads generalizing s with
  | nil => exact .scriptEnd _
  | cons rd rs ih =>
    cases hf : readFailure rd.err with
    | some e =>
      simp only [followLoop, loopBody, hf]
      exact .readFail rd rs _ e hf
    | none =>
      cases hw : s.writes with
      | nil =>
        simp only [followLoop, loopBody, hf, hw]
        exact .writesEnd rd rs _ hf
      | cons werr ws =>
        cases werr with
        | some e =>
          simp only [followLoop, loopBody, hf, hw]
          exact .writeFail rd rs _ e hf
        | none =>
          rcases readFailure_eq_none _ hf with he | he
          · simp only [followLoop, loopBody, hf, hw, he, ne_eq, reduceCtorEq, not_false_eq_true,
              if_true]
            have := ih ⟨update s.last10 rd.data, ws, s.inotify⟩
            have h2 := LoopRun.line rd rs s.last10 _ _ he this
            simpa [he] using h2
          · rcases hwait : waitForChange s.inotify with ⟨res, ino⟩
            cases res with
            | blocked =>
              simp only [followLoop, loopBody, hf, hw, he, ne_eq, not_true_eq_false, if_false,
                hwait]
              simpa [he] using LoopRun.waitBlocked rd rs s.last10 he
            | returned err =>
              cases err with
              | some e =>
                simp only [followLoop, loopBody, hf, hw, he, ne_eq, not_true_eq_false, if_false,
                  hwait]
                simpa [he] using LoopRun.waitFail rd rs s.last10 e he
              | none =>
                simp only [followLoop, loopBody, hf, hw, he, ne_eq, not_true_eq_false, if_false,
                  hwait]
                have := ih ⟨update s.last10 rd.data, ws, ino⟩
                simpa [he] using LoopRun.waitOk rd rs s.last10 _ _ he this

theorem chunksRead_append (a b : Trace) : chunksRead (a ++ b) = chunksRead a ++ chunksRead b := by
  induction a with
  | nil => rfl
  | cons e t ih => cases e <;> simp [chunksRead, ih]

theorem split1 {a ev : Event} {t pre post : Trace} (h : a :: t = pre ++ ev :: post) :
    (pre = [] ∧ ev = a ∧ post = t) ∨ ∃ p, pre = a :: p ∧ t = p ++ ev :: post := by
  cases pre with
  | nil => simp at h; exact Or.inl ⟨rfl, h.1.symm, h.2.symm⟩
  | cons x p => simp at h; exact Or.inr ⟨p, by rw [h.1], h.2⟩

theorem LoopRun.snapshot {rs : List ReadResult} {b : List GoString} {t : Trace} {o : Outcome}
    (h : LoopRun rs b t o) :
    ∀ (pre post : Trace) (ev : Event) (msg : GoString) (err : Option GoError),
      t = pre ++ ev :: post → ev = .writeMessage msg err →
      msg = arrayToByte ((chunksRead pre).foldl update b) := by
  induction h with
  | scriptEnd b => intro pre post ev msg err ht hev; simp at ht
  | readFail rd rs b e hf | writesEnd rd rs b hf =>
    intro pre post ev msg err ht hev
    rcases split1 ht with ⟨rfl, rfl, rfl⟩ | ⟨p1, rfl, h1⟩
    · simp at hev
    · simp at h1
  | writeFail rd rs b e hf =>
    intro pre post ev msg err ht hev
    rcases split1 ht with ⟨rfl, rfl, rfl⟩ | ⟨p1, rfl, h1⟩
    · simp at hev
    rcases split1 h1 with ⟨rfl, rfl, rfl⟩ | ⟨p2, rfl, h2⟩
    · simp at hev; simp [chunksRead, hev.1]
    · simp at h2
  | line rd rs b t o he hrun ih =>
    intro pre post ev msg err ht hev
    rcases split1 ht with ⟨rfl, rfl, rfl⟩ | ⟨p1, rfl, h1⟩
    · simp at hev
    rcases split1 h1 with ⟨rfl, rfl, rfl⟩ | ⟨p2, rfl, h2⟩
    · simp at hev; simp [chunksRead, hev.1]
    · simpa [chunksRead] using ih p2 post ev msg err h2 hev
  | waitBlocked rd rs b he | waitFail rd rs b e he =>
    intro pre post ev msg err ht hev
    rcases split1 ht with ⟨rfl, rfl, rfl⟩ | ⟨p1, rfl, h1⟩
    · simp at hev
    rcases split1 h1 with ⟨rfl, rfl, rfl⟩ | ⟨p2, rfl, h2⟩
    · simp at hev; simp [chunksRead, hev.1]
    rcases split1 h2 with ⟨rfl, rfl, rfl⟩ | ⟨p3, rfl, h3⟩
    · simp at hev
    · simp at h3
  | waitOk rd rs b t o he hrun ih =>
    intro pre post ev msg err ht hev
    rcases split1 ht with ⟨rfl, rfl, rfl⟩ | ⟨p1, rfl, h1⟩
    · simp at hev
    rcases split1 h1 with ⟨rfl, rfl, rfl⟩ | ⟨p2, rfl, h2⟩
    · simp at hev; simp [chunksRead, hev.1]
    rcases split1 h2 with ⟨rfl, rfl, rfl⟩ | ⟨p3, rfl, h3⟩
    · simp at hev
    · simpa [chunksRead] using ih p3 post ev msg err h3 hev

theorem LoopRun.head {rs : List ReadResult} {b : List GoString} {t : Trace} {o : Outcome}
    (h : LoopRun rs b t o) :
    t = [] ∨ ∃ d err t1, t = .readBytes d err :: t1 := by
  cases h <;> simp

theorem LoopRun.wait_after_eof {rs : List ReadResult} {b : List GoString} {t : Trace}
    {o : Outcome} (h : LoopRun rs b t o) :
    ∀ (pre post : Trace) (ev : Event) (res : WaitResult),
      t = pre ++ ev :: post → ev = .waitForChange res →
      ∃ p d msg, pre = p ++ [.readBytes d (some .EOF), .writeMessage msg none] := by
  induction h with
  | scriptEnd b => intro pre post ev res ht hev; simp at ht
  | readFail rd rs b e hf | writesEnd rd rs b hf =>
    intro pre post ev res ht hev
    rcases split1 ht with ⟨rfl, rfl, rfl⟩ | ⟨p1, rfl, h1⟩
    · simp at hev
    · simp at h1
  | writeFail rd rs b e hf =>
    intro pre post ev res ht hev
    rcases split1 ht with ⟨rfl, rfl, rfl⟩ | ⟨p1, rfl, h1⟩
    · simp at hev
    rcases split1 h1 with ⟨rfl, rfl, rfl⟩ | ⟨p2, rfl, h2⟩
    · simp at hev
    · simp at h2
  | line rd rs b t o he hrun ih =>
    intro pre post ev res ht hev
    rcases split1 ht with ⟨rfl, rfl, rfl⟩ | ⟨p1, rfl, h1⟩
    · simp at hev
    rcases split1 h1 with ⟨rfl, rfl, rfl⟩ | ⟨p2, rfl, h2⟩
    · simp at hev
    · obtain ⟨p, d, msg, hp⟩ := ih p2 post ev res h2 hev
      exact ⟨.readBytes rd.data rd.err :: .writeMessage (arrayToByte (update b rd.data)) none :: p,
        d, msg, by simp [hp]⟩
  | waitBlocked rd rs b he | waitFail rd rs b e he =>
    intro pre post ev res ht hev
    rcases split1 ht with ⟨rfl, rfl, rfl⟩ | ⟨p1, rfl, h1⟩
    · simp at hev
    rcases split1 h1 with ⟨rfl, rfl, rfl⟩ | ⟨p2, rfl, h2⟩
    · simp at hev
    rcases split1 h2 with ⟨rfl, rfl, rfl⟩ | ⟨p3, rfl, h3⟩
    · exact ⟨[], rd.data, arrayToByte (update b rd.data), by simp [he]⟩
    · simp at h3
  | waitOk rd rs b t o he hrun ih =>
    intro pre post ev res ht hev
    rcases split1 ht with ⟨rfl, rfl, rfl⟩ | ⟨p1, rfl, h1⟩
    · simp at hev
    rcases split1 h1 with ⟨rfl, rfl, rfl⟩ | ⟨p2, rfl, h2⟩
    · simp at hev
    rcases split1 h2 with ⟨rfl, rfl, rfl⟩ | ⟨p3, rfl, h3⟩
    · exact ⟨[], rd.data, arrayToByte (update b rd.data), by simp [he]⟩
    · obtain ⟨p, d, msg, hp⟩ := ih p3 post ev res h3 hev
      exact ⟨.readBytes rd.data rd.err :: .writeMessage (arrayToByte (update b rd.data)) none ::
        .waitForChange (.returned none) :: p, d, msg, by simp [hp]⟩

theorem LoopRun.read_after_line {rs : List ReadResult} {b : List GoString} {t : Trace}
    {o : Outcome} (h : LoopRun rs b t o) :
    ∀ (pre post post1 : Trace) (ev nxt : Event) (d msg : GoString) (werr : Option GoError),
      t = pre ++ ev :: post → ev = .readBytes d none →
      post = .writeMessage msg werr :: nxt :: post1 →
      ∃ d1 err1, nxt = .readBytes d1 err1 := by
  induction h with
  | scriptEnd b => intro pre post post1 ev nxt d msg werr ht hev hpost; simp at ht
  | readFail rd rs b e hf | writesEnd rd rs b hf =>
    intro pre post post1 ev nxt d msg werr ht hev hpost
    rcases split1 ht with ⟨rfl, rfl, rfl⟩ | ⟨p1, rfl, h1⟩
    · simp at hpost
    · simp at h1
  | writeFail rd rs b e hf =>
    intro pre post post1 ev nxt d msg werr ht hev hpost
    rcases split1 ht with ⟨rfl, rfl, rfl⟩ | ⟨p1, rfl, h1⟩
    · simp at hpost
    rcases split1 h1 with ⟨rfl, rfl, rfl⟩ | ⟨p2, rfl, h2⟩
    · simp at hev
    · simp at h2
  | line rd rs b t o he hrun ih =>
    intro pre post post1 ev nxt d msg werr ht hev hpost
    rcases split1 ht with ⟨rfl, rfl, rfl⟩ | ⟨p1, rfl, h1⟩
    · simp only [List.cons.injEq] at hpost
      rcases hrun.head with h0 | ⟨d1, err1, t1, h0⟩
      · rw [h0] at hpost; simp at hpost
      · rw [h0] at hpost
        simp only [List.cons.injEq] at hpost
        exact ⟨d1, err1, hpost.2.1.symm⟩
    rcases split1 h1 with ⟨rfl, rfl, rfl⟩ | ⟨p2, rfl, h2⟩
    · simp at hev
    · exact ih p2 post post1 ev nxt d msg werr h2 hev hpost
  | waitBlocked rd rs b he | waitFail rd rs b e he =>
    intro pre post post1 ev nxt d msg werr ht hev hpost
    rcases split1 ht with ⟨rfl, rfl, rfl⟩ | ⟨p1, rfl, h1⟩
    · simp [he] at hev
    rcases split1 h1 with ⟨rfl, rfl, rfl⟩ | ⟨p2, rfl, h2⟩
    · simp at hev
    rcases split1 h2 with ⟨rfl, rfl, rfl⟩ | ⟨p3, rfl, h3⟩
    · simp at hev
    · simp at h3
  | waitOk rd rs b t o he hrun ih =>
    intro pre post post1 ev nxt d msg werr ht hev hpost
    rcases split1 ht with ⟨rfl, rfl, rfl⟩ | ⟨p1, rfl, h1⟩
    · simp [he] at hev
    rcases split1 h1 with ⟨rfl, rfl, rfl⟩ | ⟨p2, rfl, h2⟩
    · simp at hev
    rcases split1 h2 with ⟨rfl, rfl, rfl⟩ | ⟨p3, rfl, h3⟩
    · simp at hev
    · exact ih p3 post post1 ev nxt d msg werr h3 hev hpost

theorem LoopRun.failure_is_last {rs : List ReadResult} {b : List GoString} {t : Trace}
    {o : Outcome} (h : LoopRun rs b t o) :
    ∀ (pre post : Trace) (ev : Event) (e : GoError),
      t = pre ++ ev :: post → ev.failure = some e → post = [] ∧ o = .returned e := by
  induction h with
  | scriptEnd b => intro pre post ev e ht hev; simp at ht
  | readFail rd rs b e0 hf =>
    intro pre post ev e ht hev
    rcases split1 ht with ⟨rfl, rfl, rfl⟩ | ⟨p1, rfl, h1⟩
    · simp [Event.failure, hf] at hev; simp [hev]
    · simp at h1
  | writesEnd rd rs b hf =>
    intro pre post ev e ht hev
    rcases split1 ht with ⟨rfl, rfl, rfl⟩ | ⟨p1, rfl, h1⟩
    · simp [Event.failure, hf] at hev
    · simp at h1
  | writeFail rd rs b e0 hf =>
    intro pre post ev e ht hev
    rcases split1 ht with ⟨rfl, rfl, rfl⟩ | ⟨p1, rfl, h1⟩
    · simp [Event.failure, hf] at hev
    rcases split1 h1 with ⟨rfl, rfl, rfl⟩ | ⟨p2, rfl, h2⟩
    · simp [Event.failure] at hev; simp [hev]
    · simp at h2
  | line rd rs b t o he hrun ih =>
    intro pre post ev e ht hev
    rcases split1 ht with ⟨rfl, rfl, rfl⟩ | ⟨p1, rfl, h1⟩
    · simp [Event.failure, he, readFailure] at hev
    rcases split1 h1 with ⟨rfl, rfl, rfl⟩ | ⟨p2, rfl, h2⟩
    · simp [Event.failure] at hev
    · exact ih p2 post ev e h2 hev
  | waitBlocked rd rs b he =>
    intro pre post ev e ht hev
    rcases split1 ht with ⟨rfl, rfl, rfl⟩ | ⟨p1, rfl, h1⟩
    · simp [Event.failure, he, readFailure] at hev
    rcases split1 h1 with ⟨rfl, rfl, rfl⟩ | ⟨p2, rfl, h2⟩
    · simp [Event.failure] at hev
    rcases split1 h2 with ⟨rfl, rfl, rfl⟩ | ⟨p3, rfl, h3⟩
    · simp [Event.failure] at hev
    · simp at h3
  | waitFail rd rs b e0 he =>
    intro pre post ev e ht hev
    rcases split1 ht with ⟨rfl, rfl, rfl⟩ | ⟨p1, rfl, h1⟩
    · simp [Event.failure, he, readFailure] at hev
    rcases split1 h1 with ⟨rfl, rfl, rfl⟩ | ⟨p2, rfl, h2⟩
    · simp [Event.failure] at hev
    rcases split1 h2 with ⟨rfl, rfl, rfl⟩ | ⟨p3, rfl, h3⟩
    · simp [Event.failure] at hev; simp [hev]
    · simp at h3
  | waitOk rd rs b t o he hrun ih =>
    intro pre post ev e ht hev
    rcases split1 ht with ⟨rfl, rfl, rfl⟩ | ⟨p1, rfl, h1⟩
    · simp [Event.failure, he, readFailure] at hev
    rcases split1 h1 with ⟨rfl, rfl, rfl⟩ | ⟨p2, rfl, h2⟩
    · simp [Event.failure] at hev
    rcases split1 h2 with ⟨rfl, rfl, rfl⟩ | ⟨p3, rfl, h3⟩
    · simp [Event.failure] at hev
    · exact ih p3 post ev e h3 hev

theorem LoopRun.returned_by_failure {rs : List ReadResult} {b : List GoString} {t : Trace}
    {o : Outcome} (h : LoopRun rs b t o) :
    ∀ e, o = .returned e → ∃ pre ev, t = pre ++ [ev] ∧ ev.failure = some e := by
  induction h with
  | scriptEnd b => intro e ho; simp at ho
  | readFail rd rs b e0 hf =>
    intro e ho
    simp only [Outcome.returned.injEq] at ho
    exact ⟨[], _, rfl, by simp [Event.failure, hf, ho]⟩
  | writesEnd rd rs b hf => intro e ho; simp at ho
  | writeFail rd rs b e0 hf =>
    intro e ho
    simp only [Outcome.returned.injEq] at ho
    exact ⟨[_], _, rfl, by simp [Event.failure, ho]⟩
  | line rd rs b t o he hrun ih =>
    intro e ho
    obtain ⟨pre, ev, ht, hev⟩ := ih e ho
    exact ⟨.readBytes rd.data rd.err :: .writeMessage (arrayToByte (update b rd.data)) none :: pre,
      ev, by simp [ht], hev⟩
  | waitBlocked rd rs b he => intro e ho; simp at ho
  | waitFail rd rs b e0 he =>
    intro e ho
    simp only [Outcome.returned.injEq] at ho
    exact ⟨[_, _], _, rfl, by simp [Event.failure, ho]⟩
  | waitOk rd rs b t o he hrun ih =>
    intro e ho
    obtain ⟨pre, ev, ht, hev⟩ := ih e ho
    exact ⟨.readBytes rd.data rd.err :: .writeMessage (arrayToByte (update b rd.data)) none ::
      .waitForChange (.returned none) :: pre, ev, by simp [ht], hev⟩

theorem LoopRun.reads_consumed {rs : List ReadResult} {b : List GoString} {t : Trace}
    {o : Outcome} (h : LoopRun rs b t o) :
    ∃ rest, rs = readsOf t ++ rest := by
  induction h with
  | scriptEnd b => exact ⟨[], rfl⟩
  | readFail rd rs b e hf => exact ⟨rs, by simp [readsOf]⟩
  | writesEnd rd rs b hf => exact ⟨rs, by simp [readsOf]⟩
  | writeFail rd rs b e hf => exact ⟨rs, by simp [readsOf]⟩
  | line rd rs b t o he hrun ih =>
    obtain ⟨rest, hr⟩ := ih
    exact ⟨rest, by simp [readsOf, ← hr]⟩
  | waitBlocked rd rs b he => exact ⟨rs, by simp [readsOf]⟩
  | waitFail rd rs b e he => exact ⟨rs, by simp [readsOf]⟩
  | waitOk rd rs b t o he hrun ih =>
    obtain ⟨rest, hr⟩ := ih
    exact ⟨rest, by simp [readsOf, ← hr]⟩

theorem LoopRun.releases_nothing {rs : List ReadResult} {b : List GoString} {t : Trace}
    {o : Outcome} (h : LoopRun rs b t o) :
    (∀ held, openHandles held t = held) ∧ ∀ x, Event.close x ∉ t := by
  induction h with
  | line rd rs b t o he hrun ih | waitOk rd rs b t o he hrun ih =>
    obtain ⟨h1, h2⟩ := ih
    refine ⟨fun held => ?_, fun x => ?_⟩
    · have := h1 held
      simpa [openHandles, Event.effect] using this
    · simpa using h2 x
  | _ => simp [openHandles, Event.effect]

theorem follow_cases (w : World) :
    (∃ e, follow w = ([.osOpen (some e)], .returned e)) ∨
    (∃ e, follow w = ([.osOpen none, .inotifyInit (some e)], .returned e)) ∨
    (∃ e, follow w = ([.osOpen none, .inotifyInit none, .inotifyAddWatch (some e)],
      .returned e)) ∨
    (∃ t o, follow w = (.osOpen none :: .inotifyInit none :: .inotifyAddWatch none :: t, o) ∧
      LoopRun w.reads [] t o) := by
  unfold follow
  cases w.openErr with
  | some e => exact Or.inl ⟨e, rfl⟩
  | none =>
    cases w.initErr with
    | some e => exact Or.inr (Or.inl ⟨e, rfl⟩)
    | none =>
      cases w.addWatchErr with
      | some e => exact Or.inr (Or.inr (Or.inl ⟨e, rfl⟩))
      | none =>
        exact Or.inr (Or.inr (Or.inr ⟨_, _, rfl,
          followLoop_run w.reads ⟨[], w.writes, w.inotify⟩⟩))

theorem follow_split (w : World) (pre post : Trace) (ev : Event)
    (h : (follow w).1 = pre ++ ev :: post) :
    ((∃ err, ev = .osOpen err ∨ ev = .inotifyInit err ∨ ev = .inotifyAddWatch err) ∧
      ∀ e, ev.failure = some e → post = [] ∧ (follow w).2 = .returned e) ∨
    ∃ p t, LoopRun w.reads [] t (follow w).2 ∧
      pre = .osOpen none :: .inotifyInit none :: .inotifyAddWatch none :: p ∧
      t = p ++ ev :: post := by
  rcases follow_cases w with ⟨e, hw⟩ | ⟨e, hw⟩ | ⟨e, hw⟩ | ⟨t, o, hw, hrun⟩
  · rw [hw] at h ⊢
    rcases split1 h with ⟨rfl, rfl, rfl⟩ | ⟨p1, rfl, h1⟩
    · exact Or.inl ⟨⟨_, Or.inl rfl⟩, by simp [Event.failure]⟩
    · simp at h1
  · rw [hw] at h ⊢
    rcases split1 h with ⟨rfl, rfl, rfl⟩ | ⟨p1, rfl, h1⟩
    · exact Or.inl ⟨⟨_, Or.inl rfl⟩, by simp [Event.failure]⟩
    rcases split1 h1 with ⟨rfl, rfl, rfl⟩ | ⟨p2, rfl, h2⟩
    · exact Or.inl ⟨⟨_, Or.inr (Or.inl rfl)⟩, by simp [Event.failure]⟩
    · simp at h2
  · rw [hw] at h ⊢
    rcases split1 h with ⟨rfl, rfl, rfl⟩ | ⟨p1, rfl, h1⟩
    · exact Or.inl ⟨⟨_, Or.inl rfl⟩, by simp [Event.failure]⟩
    rcases split1 h1 with ⟨rfl, rfl, rfl⟩ | ⟨p2, rfl, h2⟩
    · exact Or.inl ⟨⟨_, Or.inr (Or.inl rfl)⟩, by simp [Event.failure]⟩
    rcases split1 h2 with ⟨rfl, rfl, rfl⟩ | ⟨p3, rfl, h3⟩
    · exact Or.inl ⟨⟨_, Or.inr (Or.inr rfl)⟩, by simp [Event.failure]⟩
    · simp at h3
  · rw [hw] at h ⊢
    rcases split1 h with ⟨rfl, rfl, rfl⟩ | ⟨p1, rfl, h1⟩
    · exact Or.inl ⟨⟨_, Or.inl rfl⟩, by simp [Event.failure]⟩
    rcases split1 h1 with ⟨rfl, rfl, rfl⟩ | ⟨p2, rfl, h2⟩
    · exact Or.inl ⟨⟨_, Or.inr (Or.inl rfl)⟩, by simp [Event.failure]⟩
    rcases split1 h2 with ⟨rfl, rfl, rfl⟩ | ⟨p3, rfl, h3⟩
    · exact Or.inl ⟨⟨_, Or.inr (Or.inr rfl)⟩, by simp [Event.failure]⟩
    · exact Or.inr ⟨p3, t, hrun, rfl, h3⟩

theorem flatten_drop_suffix (xs : List GoString) (k : Nat) :
    ∃ older, xs.flatten = older ++ (xs.drop k).flatten :=
  ⟨(xs.take k).flatten, by rw [← List.flatten_append, List.take_append_drop]⟩

/-! ## Reading a file that does not grow -/

theorem readBytes_append (delim : Byte) (c : List Byte) :
    (readBytes delim c).1.data ++ (readBytes delim c).2 = c := by
  induction c with
  | nil => rfl
  | cons x xs ih =>
    unfold readBytes
    split
    · simp
    · simpa using ih

theorem readBytes_err (delim : Byte) (c : List Byte) :
    ((readBytes delim c).1.err = none ∧ (readBytes delim c).2.length < c.length) ∨
    ((readBytes delim c).1.err = some .EOF ∧ (readBytes delim c).2 = []) := by
  induction c with
  | nil => exact Or.inr ⟨rfl, rfl⟩
  | cons x xs ih =>
    unfold readBytes
    split
    · exact Or.inl ⟨rfl, by simp⟩
    · rcases ih with ⟨h1, h2⟩ | ⟨h1, h2⟩
      · exact Or.inl ⟨h1, by simp; omega⟩
      · exact Or.inr ⟨h1, h2⟩

theorem fileReads_eof (n : Nat) (content : List Byte) (rsPre rest : List ReadResult)
    (d : GoString) (h : fileReads n content = rsPre ++ ⟨d, some .EOF⟩ :: rest) :
    (rsPre.map (fun r => r.data)).flatten ++ d = content := by
  induction n generalizing content rsPre with
  | zero => simp [fileReads] at h
  | succ n ih =>
    simp only [fileReads] at h
    cases rsPre with
    | nil =>
      simp only [List.nil_append, List.cons.injEq] at h
      have happ := readBytes_append newline content
      rcases readBytes_err newline content with ⟨h1, _⟩ | ⟨_, h2⟩
      · rw [h.1] at h1; simp at h1
      · rw [h2, h.1] at happ
        simpa using happ
    | cons r rs =>
      simp only [List.cons_append, List.cons.injEq] at h
      have happ := readBytes_append newline content
      have := ih _ rs h.2
      rw [h.1] at happ
      simp only [List.map_cons, List.flatten_cons, List.append_assoc]
      rw [this, happ]

theorem readsOf_append (a b : Trace) : readsOf (a ++ b) = readsOf a ++ readsOf b := by
  induction a with
  | nil => rfl
  | cons e t ih => cases e <;> simp [readsOf, ih]

theorem chunksRead_eq_map (t : Trace) : chunksRead t = (readsOf t).map (fun r => r.data) := by
  induction t with
  | nil => rfl
  | cons e t ih => cases e <;> simp [readsOf, chunksRead, ih]

theorem followLoop_file_reaches_wait (n : Nat) (content : List Byte) (b : List GoString)
    (ino : List SysRead) (h : content.length < n) :
    ∃ pre res post, (followLoop (fileReads n content) ⟨b, List.replicate n none, ino⟩).1
      = pre ++ Event.waitForChange res :: post := by
  induction n generalizing content b with
  | zero => omega
  | succ n ih =>
    rcases readBytes_err newline content with ⟨h1, h2⟩ | ⟨h1, _⟩
    · obtain ⟨pre, res, post, hp⟩ :=
        ih (readBytes newline content).2 (update b (readBytes newline content).1.data) (by omega)
      refine ⟨.readBytes (readBytes newline content).1.data none ::
        .writeMessage (arrayToByte (update b (readBytes newline content).1.data)) none :: pre,
        res, post, ?_⟩
      simp [fileReads, followLoop, loopBody, h1, readFailure, List.replicate_succ, hp]
    · rcases hwait : waitForChange ino with ⟨res, ino1⟩
      refine ⟨[.readBytes (readBytes newline content).1.data (some .EOF),
        .writeMessage (arrayToByte (update b (readBytes newline content).1.data)) none],
        res, (match res with
          | .returned none => (followLoop (fileReads n (readBytes newline content).2)
              ⟨update b (readBytes newline content).1.data, List.replicate n none, ino1⟩).1
          | _ => []), ?_⟩
      cases res with
      | blocked =>
        simp [fileReads, followLoop, loopBody, h1, readFailure, List.replicate_succ, hwait]
      | returned err =>
        cases err <;>
          simp [fileReads, followLoop, loopBody, h1, readFailure, List.replicate_succ, hwait]

theorem snapshot_shape (w : World) (pre post : Trace) (msg : GoString)
    (err : Option GoError) (h : (follow w).1 = pre ++ .writeMessage msg err :: post) :
    msg = ((chunksRead pre).drop ((chunksRead pre).length - 10)).flatten := by
  rcases follow_split w pre post _ h with ⟨⟨e, h1 | h1 | h1⟩, _⟩ | ⟨p, t, hrun, hpre, ht⟩
  · simp at h1
  · simp at h1
  · simp at h1
  · have := hrun.snapshot p post _ msg err ht rfl
    rw [this, hpre, arrayToByte_eq_flatten, foldl_update_eq_drop]
    simp [chunksRead]

/-! ## Theorems for the claims -/

/-- C1: appending any sequence of strings one at a time with the update step of
`follow`, starting from the empty buffer, leaves exactly the last `min 10 k` of
the `k` appended strings, in their order; so the length is `min 10 k`, never
above 10, and the entry dropped is the oldest. -/
theorem update_keeps_last_ten (xs : List GoString) :
    xs.foldl update [] = xs.drop (xs.length - 10) ∧
    (xs.foldl update []).length = min 10 xs.length ∧
    (xs.foldl update []).length ≤ 10 ∧
    ∃ dropped, dropped ++ xs.foldl update [] = xs := by
  have h := foldl_update_eq_drop xs
  refine ⟨h, ?_, ?_, xs.take (xs.length - 10), ?_⟩
  · rw [h, List.length_drop]; omega
  · rw [h, List.length_drop]; omega
  · rw [h, List.take_append_drop]

/-- C4: `arrayToByte` is the concatenation of the elements in list order with
nothing in between: empty on the empty list, additive over `++`, and as long as
the sum of the lengths of the elements. -/
theorem arrayToByte_is_concatenation (a b : List GoString) :
    arrayToByte a = a.flatten ∧
    arrayToByte [] = [] ∧
    arrayToByte (a ++ b) = arrayToByte a ++ arrayToByte b ∧
    (arrayToByte a).length = (a.map List.length).sum := by
  refine ⟨arrayToByte_eq_flatten a, rfl, ?_, ?_⟩
  · simp [arrayToByte_eq_flatten]
  · simp [arrayToByte_eq_flatten, List.length_flatten]

/-- C6: when every notification read before `r` succeeds and delivers an event
without the IN_MODIFY bit, `waitForChange` keeps waiting past them; it returns
`nil` at `r` when `r` is a successfully read event with the bit set, and the
error of `r` when the read or the decoding of `r` fails; with nothing but such
skipped events it never returns; and whenever it returns `nil`, the last read it
consumed was a successfully read event with the IN_MODIFY bit set and all the
reads before it were skipped events. -/
theorem waitForChange_returns_at_first_modify (pre post : List SysRead) (r : SysRead)
    (hpre : ∀ x ∈ pre, x.err = none ∧
      ∃ ev, binaryRead (fillBuf x.data) = .ok ev ∧ ev.Mask.testBit 1 = false) :
    waitForChange pre = (.blocked, []) ∧
    (∀ ev, r.err = none → binaryRead (fillBuf r.data) = .ok ev → ev.Mask.testBit 1 = true →
      waitForChange (pre ++ r :: post) = (.returned none, post)) ∧
    (∀ e, r.err = some e → waitForChange (pre ++ r :: post) = (.returned (some e), post)) ∧
    (∀ e, r.err = none → binaryRead (fillBuf r.data) = .error e →
      waitForChange (pre ++ r :: post) = (.returned (some e), post)) ∧
    (∀ rs rest, waitForChange rs = (.returned none, rest) →
      ∃ p x ev, rs = p ++ x :: rest ∧ x.err = none ∧
        binaryRead (fillBuf x.data) = .ok ev ∧ ev.Mask.testBit 1 = true ∧
        ∀ y ∈ p, y.err = none ∧
          ∃ ev, binaryRead (fillBuf y.data) = .ok ev ∧ ev.Mask.testBit 1 = false) := by
  have hskip : ∀ x ∈ pre, waitStep x = none := by
    intro x hx
    obtain ⟨h1, ev, h2, h3⟩ := hpre x hx
    simp [waitStep, h1, h2, mask_modify_iff, h3]
  have hstep : ∀ y : SysRead, waitStep y = none → y.err = none ∧
      ∃ ev, binaryRead (fillBuf y.data) = .ok ev ∧ ev.Mask.testBit 1 = false := by
    intro y hy
    unfold waitStep at hy
    split at hy
    · simp at hy
    · rename_i h1
      split at hy
      · simp at hy
      · rename_i ev h2
        refine ⟨h1, ev, h2, ?_⟩
        by_cases hb : ev.Mask.testBit 1 = true
        · simp [mask_modify_iff, hb] at hy
        · simpa using hb
  refine ⟨?_, ?_, ?_, ?_, ?_⟩
  · have := waitForChange_skip pre [] hskip
    simpa [waitForChange] using this
  · intro ev h1 h2 h3
    rw [waitForChange_skip pre _ hskip]
    simp [waitForChange, waitStep, h1, h2, mask_modify_iff, h3]
  · intro e h1
    rw [waitForChange_skip pre _ hskip]
    simp [waitForChange, waitStep, h1]
  · intro e h1 h2
    rw [waitForChange_skip pre _ hskip]
    simp [waitForChange, waitStep, h1, h2]
  · intro rs rest h
    obtain ⟨p, x, hp, hs, hx⟩ := waitForChange_returned rs rest none h
    unfold waitStep at hx
    split at hx
    · simp at hx
    · rename_i h1
      split at hx
      · simp at hx
      · rename_i ev h2
        refine ⟨p, x, ev, hp, h1, h2, ?_, fun y hy => hstep y (hs y hy)⟩
        by_cases hb : ev.Mask.testBit 1 = true
        · exact hb
        · simp [mask_modify_iff, hb] at hx

/-- Witness of C6: two skipped events (masks IN_ATTRIB and IN_ACCESS), then a
modification event. -/
theorem waitForChange_returns_at_first_modify_witness :
    waitForChange ([inotifyEvent 4, inotifyEvent 1] ++ inotifyEvent 2 :: [inotifyEvent 4])
      = (.returned none, [inotifyEvent 4]) :=
  (waitForChange_returns_at_first_modify [inotifyEvent 4, inotifyEvent 1] [inotifyEvent 4]
    (inotifyEvent 2)
    (by
      intro x hx
      simp only [List.mem_cons, List.mem_singleton, List.not_mem_nil, or_false] at hx
      rcases hx with rfl | rfl
      · exact ⟨rfl, _, rfl, by decide⟩
      · exact ⟨rfl, _, rfl, by decide⟩)).2.1 _ rfl rfl (by decide)

/-- C7: `pingPeriod` is exactly 54 s, strictly below `pongWait` and at most 90%
of it; the product `pongWait * 9` fits a signed 64-bit integer and is divisible
by 10, so the division loses nothing. -/
theorem pingPeriod_is_ninety_percent :
    pongWait = 60 * Second ∧
    pingPeriod = 54 * Second ∧
    pingPeriod < pongWait ∧
    10 * pingPeriod ≤ 9 * pongWait ∧
    -(2 ^ 63) ≤ pongWait * 9 ∧ pongWait * 9 < 2 ^ 63 ∧
    Int.tmod (pongWait * 9) 10 = 0 ∧
    pingPeriod * 10 = pongWait * 9 := by
  decide

/-- C10: whenever `follow` passes a snapshot to the connection, the snapshot is
the concatenation of the last (at most ten) chunks returned by the reads made so
far, hence a suffix of the concatenation of all bytes read so far. -/
theorem snapshot_is_suffix_of_bytes_read (w : World) (pre post : Trace) (msg : GoString)
    (err : Option GoError) (h : (follow w).1 = pre ++ .writeMessage msg err :: post) :
    msg = ((chunksRead pre).drop ((chunksRead pre).length - 10)).flatten ∧
    ∃ older, (chunksRead pre).flatten = older ++ msg := by
  have hmsg := snapshot_shape w pre post msg err h
  refine ⟨hmsg, ?_⟩
  obtain ⟨older, ho⟩ := flatten_drop_suffix (chunksRead pre) ((chunksRead pre).length - 10)
  exact ⟨older, by rw [ho, ← hmsg]⟩

/-- Witness of C10: the second snapshot of the file `a\nb`. -/
theorem snapshot_is_suffix_of_bytes_read_witness :
    ([97, 10, 98] : GoString) = ([[97, 10], [98]].drop (2 - 10)).flatten ∧
    ∃ older, ([[97, 10], [98]] : List GoString).flatten = older ++ [97, 10, 98] :=
  snapshot_is_suffix_of_bytes_read (fileWorld [97, 10, 98] 3 [])
    [.osOpen none, .inotifyInit none, .inotifyAddWatch none, .readBytes [97, 10] none,
      .writeMessage [97, 10] none, .readBytes [98] (some .EOF)]
    [.waitForChange .blocked] [97, 10, 98] none (by decide)

/-- C8: in `follow` a failing call (anything but `io.EOF` from `ReadBytes`) is the
last call made and `follow` returns its error; `follow` returns only in this
way; a run whose last call is a read at end-of-content has not returned; and a
pass of the loop whose read fails makes no other call and keeps no buffer. -/
theorem io_failure_is_terminal (w : World) :
    (∀ pre ev post e, (follow w).1 = pre ++ ev :: post → ev.failure = some e →
      post = [] ∧ (follow w).2 = .returned e) ∧
    (∀ e, (follow w).2 = .returned e →
      ∃ pre ev, (follow w).1 = pre ++ [ev] ∧ ev.failure = some e) ∧
    (∀ pre d e, (follow w).1 = pre ++ [.readBytes d (some .EOF)] →
      (follow w).2 ≠ .returned e) ∧
    (∀ rd s e, readFailure rd.err = some e →
      loopBody rd s = ([.readBytes rd.data rd.err], .halt (.returned e))) := by
  have hb : ∀ e, (follow w).2 = .returned e →
      ∃ pre ev, (follow w).1 = pre ++ [ev] ∧ ev.failure = some e := by
    intro e he
    rcases follow_cases w with ⟨e0, hw⟩ | ⟨e0, hw⟩ | ⟨e0, hw⟩ | ⟨t, o, hw, hrun⟩
    · rw [hw] at he ⊢
      simp only [Outcome.returned.injEq] at he
      exact ⟨[], _, rfl, by simp [Event.failure, he]⟩
    · rw [hw] at he ⊢
      simp only [Outcome.returned.injEq] at he
      exact ⟨[.osOpen none], _, rfl, by simp [Event.failure, he]⟩
    · rw [hw] at he ⊢
      simp only [Outcome.returned.injEq] at he
      exact ⟨[.osOpen none, .inotifyInit none], _, rfl, by simp [Event.failure, he]⟩
    · rw [hw] at he ⊢
      obtain ⟨pre, ev, ht, hev⟩ := hrun.returned_by_failure e he
      exact ⟨.osOpen none :: .inotifyInit none :: .inotifyAddWatch none :: pre, ev,
        by simp [ht], hev⟩
  refine ⟨?_, hb, ?_, ?_⟩
  · intro pre ev post e h hev
    rcases follow_split w pre post ev h with ⟨_, h1⟩ | ⟨p, t, hrun, _, ht⟩
    · exact h1 e hev
    · exact hrun.failure_is_last p post ev e ht hev
  · intro pre d e h he
    obtain ⟨pre1, ev, ht, hev⟩ := hb e he
    rw [h] at ht
    have := (List.append_inj' ht rfl).2
    simp only [List.cons.injEq, and_true] at this
    rw [← this] at hev
    simp [Event.failure, readFailure] at hev
  · intro rd s e h
    simp [loopBody, h]

/-- Witness of C8: the second send of the file `a\nb` fails with `EPIPE`; it is
the last call and `follow` returns `EPIPE`. -/
theorem io_failure_is_terminal_witness :
    ([] : Trace) = [] ∧ (follow brokenPipeWorld).2 = .returned (.errno 32) :=
  (io_failure_is_terminal brokenPipeWorld).1
    [.osOpen none, .inotifyInit none, .inotifyAddWatch none, .readBytes [97, 10] none,
      .writeMessage [97, 10] none, .readBytes [98] (some .EOF)]
    (.writeMessage [97, 10, 98] (some (.errno 32))) [] (.errno 32) (by decide) rfl

/-- C5: `follow` calls `waitForChange` only right after a read that returned
end-of-content and the send of its snapshot; after a read that returned a
complete line and the send of its snapshot the next call is the next read; so
on a file that does not grow, at every call of `waitForChange` the whole content
has been read and the last call was the successful send of the snapshot of the
chunks read; and with more reads and successful sends than the file has bytes,
`follow` does reach `waitForChange`. -/
theorem follow_waits_only_at_end_of_content (w : World) :
    (∀ pre res post, (follow w).1 = pre ++ .waitForChange res :: post →
      ∃ p d msg, pre = p ++ [.readBytes d (some .EOF), .writeMessage msg none]) ∧
    (∀ pre d msg werr nxt post,
      (follow w).1 = pre ++ .readBytes d none :: .writeMessage msg werr :: nxt :: post →
      ∃ d1 err1, nxt = .readBytes d1 err1) ∧
    (∀ content n, w.reads = fileReads n content →
      ∀ pre res post, (follow w).1 = pre ++ .waitForChange res :: post →
        (chunksRead pre).flatten = content ∧
        ∃ p, pre = p ++ [.writeMessage
          ((chunksRead pre).drop ((chunksRead pre).length - 10)).flatten none]) ∧
    (∀ content n inotify, content.length < n →
      ∃ pre res post,
        (follow (fileWorld content n inotify)).1 = pre ++ .waitForChange res :: post) := by
  have ha : ∀ pre res post, (follow w).1 = pre ++ .waitForChange res :: post →
      ∃ p d msg, pre = p ++ [.readBytes d (some .EOF), .writeMessage msg none] := by
    intro pre res post h
    rcases follow_split w pre post _ h with ⟨⟨e, h1 | h1 | h1⟩, _⟩ | ⟨p, t, hrun, hpre, ht⟩
    · simp at h1
    · simp at h1
    · simp at h1
    · obtain ⟨p1, d, msg, hp⟩ := hrun.wait_after_eof p post _ res ht rfl
      exact ⟨.osOpen none :: .inotifyInit none :: .inotifyAddWatch none :: p1, d, msg,
        by simp [hpre, hp]⟩
  refine ⟨ha, ?_, ?_, ?_⟩
  · intro pre d msg werr nxt post h
    rcases follow_split w pre _ _ h with ⟨⟨e, h1 | h1 | h1⟩, _⟩ | ⟨p, t, hrun, hpre, ht⟩
    · simp at h1
    · simp at h1
    · simp at h1
    · exact hrun.read_after_line p _ post _ nxt d msg werr ht rfl rfl
  · intro content n hw pre res post h
    obtain ⟨p, d, msg, hp⟩ := ha pre res post h
    have hsnap := (snapshot_shape w (p ++ [.readBytes d (some .EOF)])
      (.waitForChange res :: post) msg none (by rw [h, hp]; simp))
    have hchunks : chunksRead pre = chunksRead (p ++ [.readBytes d (some .EOF)]) := by
      rw [hp]; simp [chunksRead_append, chunksRead]
    refine ⟨?_, p ++ [.readBytes d (some .EOF)], ?_⟩
    · rcases follow_split w pre post _ h with ⟨⟨e, h1 | h1 | h1⟩, _⟩ | ⟨p0, t, hrun, hpre, ht⟩
      · simp at h1
      · simp at h1
      · simp at h1
      · obtain ⟨rest, hrest⟩ := hrun.reads_consumed
        have hp0 : readsOf p0 = readsOf pre := by rw [hpre]; simp [readsOf]
        rw [ht, readsOf_append, hp0, hp, readsOf_append, hw] at hrest
        simp only [readsOf, List.append_assoc, List.cons_append, List.nil_append] at hrest
        have := fileReads_eof n content _ _ d hrest
        rw [hp, chunksRead_eq_map, readsOf_append]
        simpa [readsOf] using this
    · rw [hchunks, ← hsnap, hp]; simp
  · intro content n inotify hn
    obtain ⟨pre, res, post, hp⟩ := followLoop_file_reaches_wait n content [] inotify hn
    exact ⟨.osOpen none :: .inotifyInit none :: .inotifyAddWatch none :: pre, res, post,
      by simp [follow, fileWorld, hp]⟩

/-- Witness of C5: on the file `a\nb` the first `waitForChange` comes after the
whole content was read and its snapshot sent. -/
theorem follow_waits_only_at_end_of_content_witness :
    ([[97, 10], [98]] : List GoString).flatten = [97, 10, 98] ∧
    ∃ p, ([.osOpen none, .inotifyInit none, .inotifyAddWatch none, .readBytes [97, 10] none,
        .writeMessage [97, 10] none, .readBytes [98] (some .EOF),
        .writeMessage [97, 10, 98] none] : Trace)
      = p ++ [.writeMessage (([[97, 10], [98]] : List GoString).drop (2 - 10)).flatten none] :=
  (follow_waits_only_at_end_of_content (fileWorld [97, 10, 98] 3 [])).2.2.1 [97, 10, 98] 3 rfl
    [.osOpen none, .inotifyInit none, .inotifyAddWatch none, .readBytes [97, 10] none,
      .writeMessage [97, 10] none, .readBytes [98] (some .EOF),
      .writeMessage [97, 10, 98] none]
    .blocked [] (by decide)

/-- C2: on a file of ten complete lines the snapshot sent on the read that
reaches end-of-content, the last message before `follow` blocks in
`waitForChange`, holds the lines 1 to 9 only: the empty chunk of that read was
appended to the buffer and pushed line 0 out. -/
theorem snapshot_at_end_of_ten_lines :
    (follow (fileWorld tenLines 11 [])).2 = .blocked ∧
    (follow (fileWorld tenLines 11 [])).1.drop 23 =
      [.readBytes [] (some .EOF), .writeMessage (tenLines.drop 2) none,
        .waitForChange .blocked] ∧
    (chunksRead ((follow (fileWorld tenLines 11 [])).1.take 23)).flatten = tenLines ∧
    tenLines.drop 2 ≠ tenLines := by
  decide

/-- C3: after a file of ten lines was drained, a change notification followed by
a read of zero bytes at end-of-content sends a snapshot that differs from the
one before it: line 1 is gone, pushed out by the empty chunk of that read
(the read itself leaves the unread content, hence the cursor, as it was). -/
theorem empty_read_after_notification_drops_a_line :
    (follow (fileWorld tenLines 12 [inotifyEvent 2])).1.drop 23 =
      [.readBytes [] (some .EOF), .writeMessage (tenLines.drop 2) none,
        .waitForChange (.returned none),
        .readBytes [] (some .EOF), .writeMessage (tenLines.drop 4) none,
        .waitForChange .blocked] ∧
    tenLines.drop 4 ≠ tenLines.drop 2 ∧
    (readBytes newline []).2 = [] := by
  decide

/-- C9 fails: when the file opens and `InotifyInit` then fails, `follow` returns
that error with the file handle still open. -/
theorem follow_leaks_file_handle :
    (follow leakWorld).2 = .returned (.errno 24) ∧
    openHandles [.conn] (follow leakWorld).1 = [.file, .conn] := by
  decide

/-- C9 as amended: `follow` makes no close call; after it, the file handle is
open exactly when `os.Open` succeeded, the notification handle exactly when
`InotifyInit` was reached and succeeded, and the handles open before, the
connection among them, are still open; the connection is closed by `writer`,
whose return is always preceded by `pingTicker.Stop()` and `ws.Close()`. -/
theorem follow_releases_nothing (w : World) (held : List Handle) :
    (∀ x, Event.close x ∉ (follow w).1) ∧
    openHandles held (follow w).1 =
      (match w.openErr, w.initErr with
        | none, none => [.inotify, .file]
        | none, some _ => [.file]
        | some _, _ => []) ++ held ∧
    (∀ pings, (writer pings).2 = true →
      (∃ pre e, (writer pings).1 = pre ++ [.writePing (some e), .tickerStop, .close .conn]) ∧
      Handle.conn ∉ openHandles held (writer pings).1) := by
  refine ⟨?_, ?_, ?_⟩
  · intro x
    rcases follow_cases w with ⟨e, hw⟩ | ⟨e, hw⟩ | ⟨e, hw⟩ | ⟨t, o, hw, hrun⟩
    · rw [hw]; simp
    · rw [hw]; simp
    · rw [hw]; simp
    · rw [hw]; simpa using hrun.releases_nothing.2 x
  · unfold follow
    cases w.openErr with
    | some e => simp [openHandles, Event.effect]
    | none =>
      cases w.initErr with
      | some e => simp [openHandles, Event.effect]
      | none =>
        cases w.addWatchErr with
        | some e => simp [openHandles, Event.effect]
        | none =>
          have := (followLoop_run w.reads ⟨[], w.writes, w.inotify⟩).releases_nothing.1
            (.inotify :: .file :: held)
          simpa [openHandles, Event.effect] using this
  · intro pings
    induction pings generalizing held with
    | nil => simp [writer]
    | cons r rs ih =>
      cases r with
      | some e =>
        intro _
        refine ⟨⟨[], e, rfl⟩, ?_⟩
        simp [writer, openHandles, Event.effect]
      | none =>
        intro hret
        simp only [writer] at hret ⊢
        obtain ⟨⟨pre, e, hp⟩, hc⟩ := ih held hret
        refine ⟨⟨.writePing none :: pre, e, by simp [hp]⟩, ?_⟩
        simpa [openHandles, Event.effect] using hc

/-- Witness of C9 as amended: the third ping fails and `writer` returns after
stopping the ticker and closing the connection. -/
theorem follow_releases_nothing_witness :
    (∃ pre e, (writer [none, none, some (.errno 32)]).1
      = pre ++ [.writePing (some e), .tickerStop, .close .conn]) ∧
    Handle.conn ∉ openHandles [.conn] (writer [none, none, some (.errno 32)]).1 :=
  (follow_releases_nothing leakWorld [.conn]).2.2 [none, none, some (.errno 32)] rfl

end TailF
